import Mathlib

/-!
# Verification of the `base` schema-composition engine

A shallow embedding, in Lean 4, of the parts of the repository the frozen
claims are about:

* the JSON value model (`src/lib/typeOf.mjs` and the nested record/array
  trees the library manipulates),
* the Path Accessor `itFromPath` / `_get` / `_set` / `_delete`
  (`src/lib/json/index.mjs`),
* the Tree Visitor `traverse` (`src/lib/json/index.mjs`),
* the Schema Resolver `load` / `loadSchema`
  (`src/lib/jsonschema/index.mjs`, the variant with localization
  pass-through options, anchor rewriting, the non-string `$ref` guard and
  `$defs` hoisting).

JavaScript's in-place mutation is rendered as explicit state passing, the
resolver's recursive asynchronous traversal is rendered as a fuel-indexed
total function (`Fuel exhausted` is an error the real program cannot
produce for any terminating run), and content providers are arbitrary
Lean functions `String → Except String Value` standing for the async
provider functions of the source.
-/

namespace Base

/-- A JavaScript/JSON value as the library manipulates it: the trees
produced by `JSON.parse`/`res.json()` plus the two JS nullish values,
which the source distinguishes (`typeOf` returns `'null'` vs
`'undefined'`, and a present-but-`undefined` record member is
representable).  Numbers are modelled as integers; no claim involves
fractional arithmetic.  Record fields keep insertion order, as JS object
keys do. -/
inductive Value where
  | vNull
  | vUndef
  | vBool (b : Bool)
  | vNum (n : Int)
  | vStr (s : String)
  | vObj (fields : List (String × Value))
  | vArr (items : List Value)
  deriving Repr

open Value

mutual

/-- Structural equality test for `Value`, written by hand because the
deriving handler does not cover this nested inductive. -/
def Value.eqb : Value → Value → Bool
  | vObj a, vObj b => Value.eqbFields a b
  | vArr a, vArr b => Value.eqbItems a b
  | vStr a, vStr b => a == b
  | vNum a, vNum b => a == b
  | vBool a, vBool b => a == b
  | vNull, vNull => true
  | vUndef, vUndef => true
  | _, _ => false

def Value.eqbFields : List (String × Value) → List (String × Value) → Bool
  | [], [] => true
  | (k, v) :: fs, (k', v') :: fs' =>
      k == k' && Value.eqb v v' && Value.eqbFields fs fs'
  | _, _ => false

def Value.eqbItems : List Value → List Value → Bool
  | [], [] => true
  | v :: vs, v' :: vs' => Value.eqb v v' && Value.eqbItems vs vs'
  | _, _ => false

end

mutual

theorem Value.eqb_iff_eq : ∀ a b : Value, Value.eqb a b = true ↔ a = b
  | vObj a, b => by
      cases b <;> simp [Value.eqb]
      exact Value.eqbFields_iff_eq a _
  | vArr a, b => by
      cases b <;> simp [Value.eqb]
      exact Value.eqbItems_iff_eq a _
  | vStr _, b => by cases b <;> simp [Value.eqb]
  | vNum _, b => by cases b <;> simp [Value.eqb]
  | vBool _, b => by cases b <;> simp [Value.eqb]
  | vNull, b => by cases b <;> simp [Value.eqb]
  | vUndef, b => by cases b <;> simp [Value.eqb]

theorem Value.eqbFields_iff_eq :
    ∀ a b : List (String × Value), Value.eqbFields a b = true ↔ a = b
  | [], [] => by simp [Value.eqbFields]
  | [], _ :: _ => by simp [Value.eqbFields]
  | _ :: _, [] => by simp [Value.eqbFields]
  | (k, v) :: fs, (k', v') :: fs' => by
      simp [Value.eqbFields, Value.eqb_iff_eq v v',
        Value.eqbFields_iff_eq fs fs', and_assoc]

theorem Value.eqbItems_iff_eq :
    ∀ a b : List Value, Value.eqbItems a b = true ↔ a = b
  | [], [] => by simp [Value.eqbItems]
  | [], _ :: _ => by simp [Value.eqbItems]
  | _ :: _, [] => by simp [Value.eqbItems]
  | v :: vs, v' :: vs' => by
      simp [Value.eqbItems, Value.eqb_iff_eq v v',
        Value.eqbItems_iff_eq vs vs']

end

instance : DecidableEq Value := fun a b =>
  decidable_of_iff (Value.eqb a b = true) (Value.eqb_iff_eq a b)

instance {ε α : Type} [DecidableEq ε] [DecidableEq α] :
    DecidableEq (Except ε α) := fun a b =>
  match a, b with
  | .ok x, .ok y => decidable_of_iff (x = y) (by simp)
  | .error e, .error f => decidable_of_iff (e = f) (by simp)
  | .ok _, .error _ => isFalse (by simp)
  | .error _, .ok _ => isFalse (by simp)

/-- `typeOf` from `src/lib/typeOf.mjs`:
`Object.prototype.toString.call(x).slice(8, -1).toLowerCase()`. -/
def typeOf : Value → String
  | vNull => "null"
  | vUndef => "undefined"
  | vBool _ => "boolean"
  | vNum _ => "number"
  | vStr _ => "string"
  | vObj _ => "object"
  | vArr _ => "array"

/-- JavaScript's built-in `typeof` operator (used by `_set`'s
intermediate-node check), which differs from the library's `typeOf`:
`typeof null`, `typeof []` and `typeof {}` are all `'object'`. -/
def jsTypeof : Value → String
  | vNull => "object"
  | vUndef => "undefined"
  | vBool _ => "boolean"
  | vNum _ => "number"
  | vStr _ => "string"
  | vObj _ => "object"
  | vArr _ => "object"

/-- `x == null` in JS: true exactly for `null` and `undefined`. -/
def isNullish : Value → Bool
  | vNull => true
  | vUndef => true
  | _ => false

/-! ## Record (JS object) primitives

JS objects never hold a key twice; the association-list operations below
preserve that shape (`jsSet` updates in place when the key exists, which
also keeps JS's key-ordering rule: an overwritten key keeps its original
position). -/

/-- First binding of `k`, if any (JS own-property lookup). -/
def jsGet (fields : List (String × Value)) (k : String) : Option Value :=
  (fields.find? (fun p => p.1 = k)).map (·.2)

/-- `k in o` restricted to own properties of a plain object. -/
def jsHasKey (fields : List (String × Value)) (k : String) : Bool :=
  (fields.find? (fun p => p.1 = k)).isSome

/-- `o[k] = v` on a plain object: update in place if present (keeping the
key's position, as JS does), else append. -/
def jsSet (fields : List (String × Value)) (k : String) (v : Value) :
    List (String × Value) :=
  match fields with
  | [] => [(k, v)]
  | (k', v') :: rest =>
      if k' = k then (k', v) :: rest else (k', v') :: jsSet rest k v

/-- `delete o[k]` on a plain object. -/
def jsDelete (fields : List (String × Value)) (k : String) :
    List (String × Value) :=
  match fields with
  | [] => []
  | (k', v') :: rest =>
      if k' = k then rest else (k', v') :: jsDelete rest k

/-- `Object.keys` of a plain object. -/
def keysOf (fields : List (String × Value)) : List String :=
  fields.map (·.1)

/-- Decimal value of a digit string (the digit-only fragment of JS
`parseInt`; written over the character list so that it evaluates inside
the kernel). -/
def digitsToNat (cs : List Char) : Nat :=
  cs.foldl (fun a c => a * 10 + (c.toNat - '0'.toNat)) 0

/-- `String.toNat?`, written over the character list. -/
def strToNat? (s : String) : Option Nat :=
  if s.toList ≠ [] ∧ s.toList.all Char.isDigit then
    some (digitsToNat s.toList)
  else none

/-- The canonical array index denoted by a string, if any: JS treats a
string key as an array index only when it is the canonical decimal
spelling (`'01'` or `'1 '` are ordinary property names). -/
def canonIdx (s : String) : Option Nat :=
  match strToNat? s with
  | some n => if toString n = s then some n else none
  | none => none

/-- `k in o` for an array `o`: own properties are the occupied indices
and `length`.  (Properties inherited from `Array.prototype` are outside
the JSON data model and are not represented.) -/
def arrHasKey (items : List Value) (k : String) : Bool :=
  k = "length" ||
    (match canonIdx k with
     | some n => n < items.length
     | none => false)

/-- Member read `o[k]` on any value, `undefined` when absent.  Strings
are indexable in JS (`'ab'[0] === 'a'`); other scalars have no own
members. -/
def member (v : Value) (k : String) : Value :=
  match v with
  | vObj fields => (jsGet fields k).getD vUndef
  | vArr items =>
      if k = "length" then vNum items.length
      else
        match canonIdx k with
        | some n => (items.get? n).getD vUndef
        | none => vUndef
  | vStr s =>
      if k = "length" then vNum s.length
      else
        match canonIdx k with
        | some n =>
            match s.toList.get? n with
            | some c => vStr (String.mk [c])
            | none => vUndef
        | none => vUndef
  | _ => vUndef

/-- `k in o` for any object-like value (`in` throws on scalars; callers
guard with the object/array checks the source performs). -/
def memberIn (v : Value) (k : String) : Bool :=
  match v with
  | vObj fields => jsHasKey fields k
  | vArr items => arrHasKey items k
  | _ => false

/-- Element write `o[k] = x` on an array: a canonical in-range index
replaces, a past-the-end index pads with holes (which read back as
`undefined`) and appends.  A non-index key would become an expando
property on the array object; that is invisible to the JSON data model
(and to `JSON.stringify`), so the model drops it. -/
def arrSet (items : List Value) (k : String) (x : Value) : List Value :=
  match canonIdx k with
  | some n =>
      if n < items.length then items.set n x
      else items ++ List.replicate (n - items.length) vUndef ++ [x]
  | none => items

/-- `Object.keys(v)` for an arbitrary value: objects give their key list,
arrays and strings their index strings, other primitives `[]`, and
`null`/`undefined` throw a `TypeError`. -/
def objKeys (v : Value) : Except String (List String) :=
  match v with
  | vNull => .error "TypeError: Cannot convert undefined or null to object"
  | vUndef => .error "TypeError: Cannot convert undefined or null to object"
  | vObj fields => .ok (keysOf fields)
  | vArr items => .ok ((List.range items.length).map toString)
  | vStr s => .ok ((List.range s.length).map toString)
  | _ => .ok []

/-- `Object.entries(v)`, with the same `TypeError` behaviour as
`Object.keys`. -/
def objEntries (v : Value) : Except String (List (String × Value)) :=
  match v with
  | vNull => .error "TypeError: Cannot convert undefined or null to object"
  | vUndef => .error "TypeError: Cannot convert undefined or null to object"
  | vObj fields => .ok fields
  | vArr items =>
      .ok (items.enum.map (fun p => (toString p.1, p.2)))
  | vStr s =>
      .ok (s.toList.enum.map (fun p => (toString p.1, vStr (String.mk [p.2]))))
  | _ => .ok []

/-! ## Path Accessor (`src/lib/json/index.mjs`) -/

/-- One segment produced by `itFromPath`: a property name tagged with
whether it came from bare-digit bracket notation. -/
structure Seg where
  key : String
  isArrayIndex : Bool
  deriving Repr, DecidableEq

/-- A path character that can start the `([^.[\]]+)` alternative of the
tokenizer's regular expression. -/
def plainChar (c : Char) : Bool :=
  c ≠ '.' && c ≠ '[' && c ≠ ']'

theorem dropWhile_length_le {α : Type} (p : α → Bool) :
    ∀ l : List α, (l.dropWhile p).length ≤ l.length := by
  intro l
  induction l with
  | nil => simp [List.dropWhile]
  | cons c cs ih =>
      simp only [List.dropWhile]
      cases p c
      · simp
      · simp
        omega

/-- The quoted-key alternatives of the tokenizer's regular expression:
`\["([^"]+)"\]` and `\['([^']+)'\]`, tried on the text after the `[`.
When the text is a nonempty run of non-quote characters followed by the
quote and `]`, the run is a plain-key segment (it may contain `.`, `[`
and `]`). -/
def quotedSeg (q : Char) (cs : List Char) : Option (Seg × List Char) :=
  if cs.takeWhile (· ≠ q) ≠ [] ∧
      (cs.dropWhile (· ≠ q)).tail.head? = some ']' then
    some (⟨String.mk (cs.takeWhile (· ≠ q)), false⟩,
      (cs.dropWhile (· ≠ q)).tail.tail)
  else none

theorem quotedSeg_length {q : Char} {cs : List Char} {s : Seg}
    {r : List Char} (h : quotedSeg q cs = some (s, r)) :
    r.length ≤ cs.length := by
  unfold quotedSeg at h
  split at h
  · cases h
    have h1 : (cs.dropWhile (fun c => decide (c ≠ q))).length ≤ cs.length :=
      dropWhile_length_le _ cs
    have h2 : ∀ l : List Char, l.tail.length ≤ l.length := by
      intro l; cases l <;> simp
    calc (cs.dropWhile (fun c => decide (c ≠ q))).tail.tail.length
        ≤ (cs.dropWhile (fun c => decide (c ≠ q))).tail.length := h2 _
      _ ≤ (cs.dropWhile (fun c => decide (c ≠ q))).length := h2 _
      _ ≤ cs.length := h1
  · exact absurd h (by simp)

/-- The three bracketed alternatives of the tokenizer's regular
expression, tried at a `[`: `\[(\d+)\]`, `\["([^"]+)"\]`,
`\['([^']+)'\]`.  Returns the segment and the unconsumed rest. -/
def bracketSeg (cs : List Char) : Option (Seg × List Char) :=
  if cs.takeWhile Char.isDigit ≠ [] ∧
      (cs.dropWhile Char.isDigit).head? = some ']' then
    some (⟨String.mk (cs.takeWhile Char.isDigit), true⟩,
      (cs.dropWhile Char.isDigit).tail)
  else
    match cs with
    | '"' :: cs' => quotedSeg '"' cs'
    | '\'' :: cs' => quotedSeg '\'' cs'
    | _ => none

theorem bracketSeg_length {cs : List Char} {s : Seg} {r : List Char}
    (h : bracketSeg cs = some (s, r)) : r.length ≤ cs.length := by
  unfold bracketSeg at h
  split at h
  · cases h
    have h1 : (cs.dropWhile Char.isDigit).length ≤ cs.length :=
      dropWhile_length_le _ cs
    have h2 : (cs.dropWhile Char.isDigit).tail.length ≤
        (cs.dropWhile Char.isDigit).length := by
      cases cs.dropWhile Char.isDigit <;> simp
    omega
  · split at h
    · rename_i cs'
      have := quotedSeg_length h
      simp only [List.length_cons]
      omega
    · rename_i cs'
      have := quotedSeg_length h
      simp only [List.length_cons]
      omega
    · exact absurd h (by simp)

/-- The scanning loop of `itFromPath`'s global regular expression
`/([^.[\]]+)|\[(\d+)\]|(?:\["([^"]+)"\])|(?:\['([^']+)'\])/g`: at each
position the engine tries the alternatives; a position where none can
start (`.`, `]`, or a `[` that opens no valid bracket form) is skipped.
A maximal run of characters other than `.`, `[`, `]` is a plain-key
segment.  The first argument is a step bound that makes the recursion
structural; every step consumes at least one character
(`bracketSeg_length`), so a bound of the input's length never runs
out. -/
def itScanAux : Nat → List Char → List Seg
  | 0, _ => []
  | _ + 1, [] => []
  | b + 1, '[' :: rest =>
      (match bracketSeg rest with
       | some (seg, rest') => seg :: itScanAux b rest'
       | none => itScanAux b rest)
  | b + 1, '.' :: rest => itScanAux b rest
  | b + 1, ']' :: rest => itScanAux b rest
  | b + 1, c :: rest =>
      ⟨String.mk (c :: rest.takeWhile plainChar), false⟩ ::
        itScanAux b (rest.dropWhile plainChar)

def itScan (cs : List Char) : List Seg :=
  itScanAux cs.length cs

/-- `itFromPath` from `src/lib/json/index.mjs`: tokenizes a string path
into segments; the empty path yields one empty plain-key segment. -/
def itFromPath (path : String) : List Seg :=
  if path = "" then [⟨"", false⟩] else itScan path.toList

/-- The `for` loop of `_get`: walks the segments, returning the default
when an intermediate is nullish or a key is absent, the stored value
(as-is) when the final key is present.  `key in o` throws a `TypeError`
in JS when `o` is a non-nullish scalar, which the loop reaches bare. -/
def getLoop (o : Value) (segs : List Seg) (defaultValue : Value) :
    Except String Value :=
  match segs with
  | [] => .ok vUndef
  | seg :: rest =>
      if isNullish o then .ok defaultValue
      else
        match o with
        | vObj _ | vArr _ =>
            match rest with
            | [] =>
                if memberIn o seg.key then .ok (member o seg.key)
                else .ok defaultValue
            | _ :: _ =>
                if memberIn o seg.key then getLoop (member o seg.key) rest defaultValue
                else .ok defaultValue
        | _ =>
            .error "TypeError: Cannot use 'in' operator on a non-object"

/-- `_get` from `src/lib/json/index.mjs`. -/
def _get (obj : Value) (path : String) (defaultValue : Value) :
    Except String Value :=
  if typeOf obj ≠ "object" then
    .error "TypeError: obj needs to be an object"
  else getLoop obj (itFromPath path) defaultValue

/-- One intermediate step of `_set`'s loop: if the key is absent, or its
value is not an object per JS `typeof` (arrays and `null` included under
`'object'`, with `null` singled out), replace it with `[]` or `{}`
according to the next segment; then walk into it.  On an array a
non-index key would create an expando property, invisible to the JSON
model (see `arrSet`). -/
def setEnsure (o : Value) (seg next : Seg) : Value :=
  if ¬ memberIn o seg.key ∨ jsTypeof (member o seg.key) ≠ "object" ∨
      member o seg.key = vNull then
    (if next.isArrayIndex then vArr [] else vObj [])
  else member o seg.key

/-- The walking loop of `_set`, rebuilding the mutated tree: the last
segment assigns directly; an intermediate is created or overwritten per
`setEnsure` and then descended into. -/
def setLoop (o : Value) (segs : List Seg) (value : Value) : Value :=
  match segs with
  | [] => o
  | [seg] =>
      match o with
      | vObj fields => vObj (jsSet fields seg.key value)
      | vArr items => vArr (arrSet items seg.key value)
      | _ => o
  | seg :: next :: rest =>
      let child := setEnsure o seg next
      let child' := setLoop child (next :: rest) value
      match o with
      | vObj fields => vObj (jsSet fields seg.key child')
      | vArr items => vArr (arrSet items seg.key child')
      | _ => o

/-- `_set` from `src/lib/json/index.mjs`: returns the mutated root, or
the root type error. -/
def _set (obj : Value) (path : String) (value : Value) :
    Except String Value :=
  if typeOf obj ≠ "object" then
    .error "TypeError: obj needs to be an object"
  else .ok (setLoop obj (itFromPath path) value)

/-- The walking loop of `_delete`, rebuilding the mutated tree and
reporting the boolean result: the final segment is removed by `splice`
for an array index (a `TypeError` if the holder is not an array) or
`delete` otherwise; a missing or non-container intermediate is a no-op
success. -/
def delLoop (o : Value) (segs : List Seg) : Except String (Value × Bool) :=
  match segs with
  | [] => .ok (o, true)
  | [seg] =>
      if seg.isArrayIndex then
        match o with
        | vArr items =>
            let n := (strToNat? seg.key).getD 0
            .ok (vArr (items.take n ++ items.drop (n + 1)), true)
        | _ => .error "TypeError: o.splice is not a function"
      else
        match o with
        | vObj fields => .ok (vObj (jsDelete fields seg.key), true)
        | vArr items =>
            -- `delete` with a dot-notation numeric key on an array leaves
            -- a hole (length unchanged, reads back as `undefined`).
            match canonIdx seg.key with
            | some n =>
                if n < items.length then .ok (vArr (items.set n vUndef), true)
                else .ok (vArr items, true)
            | none => .ok (vArr items, true)
        | _ => .ok (o, true)
  | seg :: rest =>
      if typeOf o = "object" ∨ typeOf o = "array" then
        if memberIn o seg.key then
          match delLoop (member o seg.key) rest with
          | .ok (child', b) =>
              match o with
              | vObj fields => .ok (vObj (jsSet fields seg.key child'), b)
              | vArr items => .ok (vArr (arrSet items seg.key child'), b)
              | _ => .ok (o, b)
          | .error e => .error e
        else .ok (o, true)
      else .ok (o, true)

/-- `_delete` from `src/lib/json/index.mjs`: returns the mutated root and
the reported boolean, or the root type error.  (The source also
type-checks that `path` is a string; in this embedding `path : String`
always, so that check never fires.) -/
def _delete (obj : Value) (path : String) : Except String (Value × Bool) :=
  if typeOf obj ≠ "object" then
    .error "TypeError: obj needs to be an object"
  else delLoop obj (itFromPath path)

/-! ## Tree Visitor (`traverse`, `src/lib/json/index.mjs`)

`traverse` is asynchronous in the source but performs no I/O of its own;
with a pure `visit` callback it is the pure depth-first search below.
The embedding also returns the list of `visit` invocations (node, path),
in order, so that statements like "visits nothing after the first truthy
result" are about the program and not about a paraphrase. -/

mutual

/-- `traverse(node, visit, path = '$')`: invoke `visit` on the node
first; a truthy result stops everything and is returned as
`{node, path}`; otherwise record children are walked in key order and
array children by ascending index.  First component: the returned match,
if any; second: the `visit` calls made, in order. -/
def traverse (node : Value) (visit : Value → String → Bool)
    (path : String) : Option (Value × String) × List (Value × String) :=
  if visit node path then (some (node, path), [(node, path)])
  else
    match node with
    | vObj fields =>
        let r := traverseFields fields visit path
        (r.1, (node, path) :: r.2)
    | vArr items =>
        let r := traverseItems items visit path 0
        (r.1, (node, path) :: r.2)
    | _ => (none, [(node, path)])

/-- The `for` loop over `Object.keys(node)`: child paths append
`.<key>`. -/
def traverseFields (fields : List (String × Value))
    (visit : Value → String → Bool) (path : String) :
    Option (Value × String) × List (Value × String) :=
  match fields with
  | [] => (none, [])
  | (k, v) :: rest =>
      let r := traverse v visit (path ++ "." ++ k)
      match r.1 with
      | some x => (some x, r.2)
      | none =>
          let r' := traverseFields rest visit path
          (r'.1, r.2 ++ r'.2)

/-- The `for` loop over array indices: child paths append `[<i>]`. -/
def traverseItems (items : List Value) (visit : Value → String → Bool)
    (path : String) (i : Nat) :
    Option (Value × String) × List (Value × String) :=
  match items with
  | [] => (none, [])
  | v :: rest =>
      let r := traverse v visit (path ++ "[" ++ toString i ++ "]")
      match r.1 with
      | some x => (some x, r.2)
      | none =>
          let r' := traverseItems rest visit path (i + 1)
          (r'.1, r.2 ++ r'.2)

end

mutual

/-- Specification-side description of the traversal order (claim C9):
the depth-first preorder listing of every node with its canonical path —
the root first, record children in key order, array children by
ascending index, paths formed by appending `.<key>` / `[<index>]`. -/
def preorder (node : Value) (path : String) : List (Value × String) :=
  match node with
  | vObj fields => (node, path) :: preorderFields fields path
  | vArr items => (node, path) :: preorderItems items path 0
  | _ => [(node, path)]

def preorderFields (fields : List (String × Value)) (path : String) :
    List (Value × String) :=
  match fields with
  | [] => []
  | (k, v) :: rest => preorder v (path ++ "." ++ k) ++ preorderFields rest path

def preorderItems (items : List Value) (path : String) (i : Nat) :
    List (Value × String) :=
  match items with
  | [] => []
  | v :: rest =>
      preorder v (path ++ "[" ++ toString i ++ "]") ++
        preorderItems rest path (i + 1)

end

/-- The prefix of a list actually consumed when scanning for the first
element satisfying `p`: everything before the first hit, plus the hit
itself when there is one. -/
def visitedPrefix {α : Type} (l : List α) (p : α → Bool) : List α :=
  match l with
  | [] => []
  | x :: xs => if p x then [x] else x :: visitedPrefix xs p

theorem visitedPrefix_eta {α : Type} (l : List α) (p : α → Bool)
    (h : l.find? p = none) : visitedPrefix l p = l := by
  induction l with
  | nil => rfl
  | cons x xs ih =>
      cases hx : p x with
      | true =>
          rw [List.find?_cons_of_pos _ hx] at h
          exact absurd h (by simp)
      | false =>
          rw [List.find?_cons_of_neg _ (by simp [hx])] at h
          unfold visitedPrefix
          simp [hx, ih h]

theorem visitedPrefix_append {α : Type} (l₁ l₂ : List α) (p : α → Bool) :
    visitedPrefix (l₁ ++ l₂) p =
      if (l₁.find? p).isSome then visitedPrefix l₁ p
      else l₁ ++ visitedPrefix l₂ p := by
  induction l₁ with
  | nil => simp [visitedPrefix]
  | cons x xs ih =>
      cases hx : p x with
      | true =>
          simp [visitedPrefix, hx, List.find?_cons_of_pos _ hx]
      | false =>
          rw [List.cons_append,
            show visitedPrefix (x :: (xs ++ l₂)) p =
              x :: visitedPrefix (xs ++ l₂) p from by
                simp [visitedPrefix, hx],
            ih, List.find?_cons_of_neg _ (by simp [hx])]
          by_cases hf : (List.find? p xs).isSome
          · simp [hf, visitedPrefix, hx]
          · simp [hf]

mutual

/-- The Tree Visitor is exactly "scan the preorder listing for the first
truthy `visit`": the returned match is the first preorder element whose
visit is truthy (none otherwise), and the calls actually made are the
preorder prefix up to and including that element. -/
theorem traverse_eq_preorder (node : Value) (visit : Value → String → Bool)
    (path : String) :
    traverse node visit path =
      ((preorder node path).find? (fun q => visit q.1 q.2),
        visitedPrefix (preorder node path) (fun q => visit q.1 q.2)) := by
  cases node with
  | vObj fields =>
      rw [traverse, preorder]
      cases hx : visit (vObj fields) path with
      | true => simp [List.find?_cons, hx, visitedPrefix]
      | false =>
          simp only [List.find?_cons, hx, visitedPrefix, if_false,
            Bool.false_eq_true, cond_false]
          rw [traverseFields_eq_preorder fields visit path]
  | vArr items =>
      rw [traverse, preorder]
      cases hx : visit (vArr items) path with
      | true => simp [List.find?_cons, hx, visitedPrefix]
      | false =>
          simp only [List.find?_cons, hx, visitedPrefix, if_false,
            Bool.false_eq_true, cond_false]
          rw [traverseItems_eq_preorder items visit path 0]
  | vNull =>
      cases hx : visit vNull path <;>
        simp [traverse, preorder, List.find?_cons, hx, visitedPrefix]
  | vUndef =>
      cases hx : visit vUndef path <;>
        simp [traverse, preorder, List.find?_cons, hx, visitedPrefix]
  | vBool b =>
      cases hx : visit (vBool b) path <;>
        simp [traverse, preorder, List.find?_cons, hx, visitedPrefix]
  | vNum n =>
      cases hx : visit (vNum n) path <;>
        simp [traverse, preorder, List.find?_cons, hx, visitedPrefix]
  | vStr s =>
      cases hx : visit (vStr s) path <;>
        simp [traverse, preorder, List.find?_cons, hx, visitedPrefix]

theorem traverseFields_eq_preorder (fields : List (String × Value))
    (visit : Value → String → Bool) (path : String) :
    traverseFields fields visit path =
      ((preorderFields fields path).find? (fun q => visit q.1 q.2),
        visitedPrefix (preorderFields fields path)
          (fun q => visit q.1 q.2)) := by
  cases fields with
  | nil => simp [traverseFields, preorderFields, visitedPrefix]
  | cons kv rest =>
      obtain ⟨k, v⟩ := kv
      rw [traverseFields, preorderFields]
      rw [traverse_eq_preorder v visit (path ++ "." ++ k)]
      rw [List.find?_append, visitedPrefix_append]
      cases hf : (preorder v (path ++ "." ++ k)).find?
          (fun q => visit q.1 q.2) with
      | some x => simp [hf, Option.or]
      | none =>
          simp only [hf, Option.or, Option.isSome_none, if_false,
            Bool.false_eq_true]
          rw [traverseFields_eq_preorder rest visit path]
          simp [visitedPrefix_eta _ _ hf]

theorem traverseItems_eq_preorder (items : List Value)
    (visit : Value → String → Bool) (path : String) (i : Nat) :
    traverseItems items visit path i =
      ((preorderItems items path i).find? (fun q => visit q.1 q.2),
        visitedPrefix (preorderItems items path i)
          (fun q => visit q.1 q.2)) := by
  cases items with
  | nil => simp [traverseItems, preorderItems, visitedPrefix]
  | cons v rest =>
      rw [traverseItems, preorderItems]
      rw [traverse_eq_preorder v visit (path ++ "[" ++ toString i ++ "]")]
      rw [List.find?_append, visitedPrefix_append]
      cases hf : (preorder v (path ++ "[" ++ toString i ++ "]")).find?
          (fun q => visit q.1 q.2) with
      | some x => simp [hf, Option.or]
      | none =>
          simp only [hf, Option.or, Option.isSome_none, if_false,
            Bool.false_eq_true]
          rw [traverseItems_eq_preorder rest visit path (i + 1)]
          simp [visitedPrefix_eta _ _ hf]

end

/-! ## Schema Resolver (`src/lib/jsonschema/index.mjs`)

`loadSchema` fetches one document through a protocol-keyed Content
Provider and splices a localization overlay into it; `load` resolves a
root document transitively, rewriting every reference into the Global
Definition Table.  Content providers are arbitrary functions
`String → Except String Value` (the address of the document to its
parsed body, or a thrown error); the pass-through options of the source
are opaque to the resolver and are not represented. -/

/-- `String.prototype.startsWith`, written over character lists so that
it evaluates inside the kernel. -/
def strStartsWith (s pre : String) : Bool :=
  pre.toList.isPrefixOf s.toList

/-- `String.prototype.substring(n)` (drop the first `n` characters). -/
def strDrop (s : String) (n : Nat) : String :=
  String.mk (s.toList.drop n)

/-- `String.prototype.toUpperCase` (ASCII, as protocol tokens are). -/
def strToUpper (s : String) : String :=
  String.mk (s.toList.map Char.toUpper)

/-- `String.prototype.toLowerCase` (ASCII). -/
def strToLower (s : String) : String :=
  String.mk (s.toList.map Char.toLower)

/-- `keyFrom` (a helper closed over by `load`):
`$ref.replaceAll('/', ':')`. -/
def keyFrom (r : String) : String :=
  String.mk (r.toList.map (fun c => if c = '/' then ':' else c))

def replaceFirstAux (s pat rep : List Char) : List Char :=
  match s with
  | [] => []
  | c :: cs =>
      if pat.isPrefixOf (c :: cs) then rep ++ (c :: cs).drop pat.length
      else c :: replaceFirstAux cs pat rep

/-- JS `String.prototype.replace` with a string pattern: replaces the
first occurrence only (the localization address derivation relies on
this). -/
def replaceFirst (s pat rep : String) : String :=
  String.mk (replaceFirstAux s.toList pat.toList rep.toList)

/-- Splits a character list at the first `://`, when present. -/
def findSchemeSep : List Char → Option (List Char × List Char)
  | [] => none
  | c :: cs =>
      if [':', '/', '/'].isPrefixOf (c :: cs) then some ([], cs.drop 2)
      else
        match findSchemeSep cs with
        | some (a, b) => some (c :: a, b)
        | none => none

/-- Splits `scheme://rest`, when present. -/
def splitScheme (s : String) : Option (String × String) :=
  match findSchemeSep s.toList with
  | some (a, b) => if a = [] then none else some (String.mk a, String.mk b)
  | none => none

/-- Everything up to and including the last `/` of `s`. -/
def upToLastSlash (s : String) : String :=
  String.mk (((s.toList.reverse).dropWhile (· ≠ '/')).reverse)

/-- A model of the WHATWG `new URL(uri, basepath)` constructor restricted
to the shapes the resolver meets: an absolute `scheme://…` input keeps
its own scheme; a relative input is resolved against the base's
directory.  Returns `(protocol without the trailing colon, href)`,
i.e. the source's `url.protocol.slice(0, -1)` and `url.toString()`.
Dot-segment and query/fragment normalization are outside the model. -/
def urlResolve (uri basepath : String) : Except String (String × String) :=
  match splitScheme uri with
  | some (sch, _) => .ok (strToLower sch, uri)
  | none =>
      match splitScheme basepath with
      | some (sch, after) =>
          if after.toList.contains '/' then
            .ok (strToLower sch, upToLastSlash basepath ++ uri)
          else .ok (strToLower sch, basepath ++ "/" ++ uri)
      | none => .error "TypeError: Invalid URL"

/-- A Content Provider map: protocol token to async loader. -/
def Providers : Type := List (String × (String → Except String Value))

def lookupProv (provs : Providers) (p : String) :
    Option (String → Except String Value) :=
  ((provs : List _).find? (fun q => q.1 = p)).map (·.2)

mutual

/-- JS `String(v)` coercion, as applied when a localization `path` value
that is not a string reaches the tokenizer's regular expression. -/
def jsToString (v : Value) : String :=
  match v with
  | vNull => "null"
  | vUndef => "undefined"
  | vBool b => if b then "true" else "false"
  | vNum n => toString n
  | vStr s => s
  | vObj _ => "[object Object]"
  | vArr items => jsToStringItems items

/-- JS `Array.prototype.toString`: elements joined by `,`, with nullish
elements rendered empty. -/
def jsToStringItems (items : List Value) : String :=
  match items with
  | [] => ""
  | [v] => if isNullish v then "" else jsToString v
  | v :: rest =>
      (if isNullish v then "" else jsToString v) ++ "," ++
        jsToStringItems rest

end

/-- The list form of the localization merge:
`l10n.forEach(({ path, value }) => { _set(schema, path, value) })`.
Destructuring a nullish element throws; on any other element the two
properties are read (possibly `undefined`). -/
def mergeL10nList (schema : Value) (items : List Value) :
    Except String Value :=
  match items with
  | [] => .ok schema
  | item :: rest =>
      if isNullish item then
        .error "TypeError: Cannot destructure properties of a nullish value"
      else
        match _set schema (jsToString (member item "path"))
            (member item "value") with
        | .ok schema' => mergeL10nList schema' rest
        | .error e => .error e

/-- The record form of the localization merge:
`Object.entries(l10n).forEach(([path, value]) => { _set(...) })`. -/
def mergeL10nEntries (schema : Value) (entries : List (String × Value)) :
    Except String Value :=
  match entries with
  | [] => .ok schema
  | (p, v) :: rest =>
      match _set schema p v with
      | .ok schema' => mergeL10nEntries schema' rest
      | .error e => .error e

/-- `loadSchema` from `src/lib/jsonschema/index.mjs`: resolve the URI,
look up a provider for its protocol (failing with the
`…_NOT_IMPLEMENTED` error naming the uppercased protocol otherwise),
fetch the document, then attempt the localization sidecar — a *thrown*
localization fetch is swallowed (`l10n` stays `{}`), but its returned
value, whatever it is, reaches `Array.isArray` / `Object.entries`
unguarded. -/
def loadSchema (uri basepath lang : String) (providers : Providers) :
    Except String Value :=
  match urlResolve uri basepath with
  | .error e => .error e
  | .ok (protocol, href) =>
      match lookupProv providers protocol with
      | some provider =>
          match provider href with
          | .error e => .error e
          | .ok schema =>
              let l10n : Value :=
                match provider (replaceFirst href ".schema.json"
                    ("." ++ lang ++ ".json")) with
                | .ok v => v
                | .error _ => vObj []
              match l10n with
              | vArr items => mergeL10nList schema items
              | _ =>
                  match objEntries l10n with
                  | .ok entries => mergeL10nEntries schema entries
                  | .error e => .error e
      | none =>
          .error ("JSONSCHEMA_LOADER_PROTOCOL_" ++ strToUpper protocol ++
            "_NOT_IMPLEMENTED")

/-- The mutable context of one `load` call, threaded explicitly: the
Global Definition Table (`$defs`), plus two instrumentation logs — the
URIs passed to `loadSchema` and the keys hoisted out of local `$defs`
members — so that claims about fetching and hoisting are statements
about the run itself. -/
structure St where
  defs : List (String × Value)
  fetched : List String
  hoisted : List String
  deriving Repr, DecidableEq

/-- The closure variables of `load` that its `visitor` helper captures:
the *root* `uri`, the base path, and the resolved options. -/
structure Ctx where
  uri : String
  basepath : String
  lang : String
  providers : Providers

/-- The `$defs`-hoisting tail of the visitor (`if ('$defs' in node)`):
every local definition name is copied into the table under
`<keyFrom(root uri)>:$defs:<name>`, then the `$defs` member is deleted
from the node. -/
def hoistStep (ctx : Ctx) (fields : List (String × Value)) (st : St) :
    Except String (Value × St) :=
  if jsHasKey fields "$defs" then
    match objKeys ((jsGet fields "$defs").getD vUndef) with
    | .error e => .error e
    | .ok localDefs =>
        .ok (vObj (jsDelete fields "$defs"),
          { st with
            defs := localDefs.foldl
              (fun acc d =>
                jsSet acc (keyFrom ctx.uri ++ ":$defs:" ++ d)
                  (member ((jsGet fields "$defs").getD vUndef) d))
              st.defs,
            hoisted := st.hoisted ++
              localDefs.map (fun d => keyFrom ctx.uri ++ ":$defs:" ++ d) })
  else .ok (vObj fields, st)

mutual

/-- The reference-discovery `visitor` helper of `load`, on one node.
Fuel only limits the recursive traversal of newly fetched documents.
Mirrors the source's early returns: non-object nodes, nodes without
`$ref`/`$defs`, non-string `$ref` values and `#…` anchors leave the
function before the `$defs` hoisting. -/
def visitor : Nat → Ctx → Value → St → Except String (Value × St)
  | 0, _, _, _ => .error "FUEL_EXHAUSTED"
  | fuel + 1, ctx, node, st =>
      if typeOf node ≠ "object" then .ok (node, st)
      else
        match node with
        | vObj fields => visitorObj fuel ctx fields st
        | _ => .ok (node, st)

/-- Body of the visitor for an object node (the only kind that passes the
`typeOf` short-circuit). -/
def visitorObj : Nat → Ctx → List (String × Value) → St →
    Except String (Value × St)
  | 0, _, _, _ => .error "FUEL_EXHAUSTED"
  | fuel + 1, ctx, fields, st =>
      if ¬ (jsHasKey fields "$ref" || jsHasKey fields "$defs") then
        .ok (vObj fields, st)
      else
        if jsHasKey fields "$ref" then
          match jsGet fields "$ref" with
          | some r =>
              if typeOf r ≠ "string" then .ok (vObj fields, st)
              else
                match r with
                | vStr s =>
                    if strStartsWith s "#" then
                      .ok (vObj (jsSet fields "$ref"
                        (vStr ("#/$defs/" ++ keyFrom ctx.uri ++ ":" ++
                          keyFrom (strDrop s 2)))), st)
                    else
                      match visitorFetch fuel ctx s st with
                      | .error e => .error e
                      | .ok st' =>
                          hoistStep ctx
                            (jsSet fields "$ref"
                              (vStr ("#/$defs/" ++ keyFrom s))) st'
                | _ => .ok (vObj fields, st)
          | none => .ok (vObj fields, st)
        else hoistStep ctx fields st

/-- The memoized external fetch of the visitor: a reference key already
in the table is not fetched again; otherwise `loadSchema` the reference
(against the same `basepath`), store it under its key, and run the Tree
Visitor over the newly loaded document with the same callback. -/
def visitorFetch : Nat → Ctx → String → St → Except String St
  | 0, _, _, _ => .error "FUEL_EXHAUSTED"
  | fuel + 1, ctx, s, st =>
      if jsHasKey st.defs (keyFrom s) then .ok st
      else
        match loadSchema s ctx.basepath ctx.lang ctx.providers with
        | .error e => .error e
        | .ok schema =>
            match traverseDoc fuel ctx schema
                { st with
                  fetched := st.fetched ++ [s],
                  defs := jsSet st.defs (keyFrom s) schema } with
            | .error e => .error e
            | .ok (schema', st') =>
                .ok { st' with defs := jsSet st'.defs (keyFrom s) schema' }

/-- `traverse(document, visitor)` as `load` runs it: the visitor is
applied to the node first (its result is always falsy in the source, so
the traversal never short-circuits), then the children of the *mutated*
node are walked — `Object.keys` is read after the visitor may have
rewritten `$ref` and deleted `$defs`. -/
def traverseDoc : Nat → Ctx → Value → St → Except String (Value × St)
  | 0, _, _, _ => .error "FUEL_EXHAUSTED"
  | fuel + 1, ctx, node, st =>
      match visitor fuel ctx node st with
      | .error e => .error e
      | .ok (node', st') =>
          match node' with
          | vObj fields =>
              match traverseDocFields fuel ctx fields st' with
              | .error e => .error e
              | .ok (fields', st'') => .ok (vObj fields', st'')
          | vArr items =>
              match traverseDocItems fuel ctx items st' with
              | .error e => .error e
              | .ok (items', st'') => .ok (vArr items', st'')
          | _ => .ok (node', st')

def traverseDocFields : Nat → Ctx → List (String × Value) → St →
    Except String (List (String × Value) × St)
  | 0, _, _, _ => .error "FUEL_EXHAUSTED"
  | _ + 1, _, [], st => .ok ([], st)
  | fuel + 1, ctx, (k, v) :: rest, st =>
      match traverseDoc fuel ctx v st with
      | .error e => .error e
      | .ok (v', st') =>
          match traverseDocFields fuel ctx rest st' with
          | .error e => .error e
          | .ok (rest', st'') => .ok ((k, v') :: rest', st'')

def traverseDocItems : Nat → Ctx → List Value → St →
    Except String (List Value × St)
  | 0, _, _, _ => .error "FUEL_EXHAUSTED"
  | _ + 1, _, [], st => .ok ([], st)
  | fuel + 1, ctx, v :: rest, st =>
      match traverseDoc fuel ctx v st with
      | .error e => .error e
      | .ok (v', st') =>
          match traverseDocItems fuel ctx rest st' with
          | .error e => .error e
          | .ok (rest', st'') => .ok (v' :: rest', st'')

end

/-- The response of the global `fetch`, as far as the default provider
reads it: `ok`, `status`, and the parsed JSON body. -/
structure FetchResp where
  ok : Bool
  status : Nat
  body : Value

/-- The ambient `fetch` implementation the default provider closes
over. -/
structure FetchEnv where
  fetch : String → FetchResp

/-- The provider map `load` substitutes when `options.providers` is
omitted: exactly one entry, `http`, a fetch-based loader throwing
`Error('HTTP_<status>')` on a non-OK response. -/
def defaultProviders (env : FetchEnv) : Providers :=
  [("http", fun url =>
    let res := env.fetch url
    if ¬ res.ok then .error ("HTTP_" ++ toString res.status)
    else .ok res.body)]

/-- `load` from `src/lib/jsonschema/index.mjs`: default the options,
fetch the root, store it under its reference key, run the traversal, and
return `{ $defs, $ref: '#/$defs/<rootKey>' }`.  Also returns the final
threaded state (table and instrumentation logs). -/
def load (fuel : Nat) (env : FetchEnv) (uri basepath : String)
    (langOpt : Option String) (providersOpt : Option Providers) :
    Except String (Value × St) :=
  match loadSchema uri basepath (langOpt.getD "en-US")
      (providersOpt.getD (defaultProviders env)) with
  | .error e => .error e
  | .ok root =>
      match traverseDoc fuel
          ⟨uri, basepath, langOpt.getD "en-US",
            providersOpt.getD (defaultProviders env)⟩
          root ⟨jsSet [] (keyFrom uri) root, [uri], []⟩ with
      | .error e => .error e
      | .ok (root', st) =>
          .ok (vObj [("$defs", vObj (jsSet st.defs (keyFrom uri) root')),
            ("$ref", vStr ("#/$defs/" ++ keyFrom uri))],
            { st with defs := jsSet st.defs (keyFrom uri) root' })

/-! ## Table lemmas -/

theorem jsHasKey_iff {f : List (String × Value)} {k : String} :
    jsHasKey f k = true ↔ k ∈ keysOf f := by
  induction f with
  | nil => simp [jsHasKey, keysOf]
  | cons p rest ih =>
      obtain ⟨k', v'⟩ := p
      by_cases hk : k' = k
      · subst hk
        simp [jsHasKey, keysOf, List.find?_cons]
      · rw [show jsHasKey ((k', v') :: rest) k = jsHasKey rest k from by
          simp [jsHasKey, List.find?_cons, hk]]
        simp [keysOf, ih, Ne.symm hk]

theorem jsGet_some_hasKey {f : List (String × Value)} {k : String}
    {v : Value} (h : jsGet f k = some v) : jsHasKey f k = true := by
  unfold jsGet at h
  unfold jsHasKey
  cases hf : f.find? (fun p => p.1 = k) <;> simp [hf] at h ⊢

theorem keysOf_jsSet (f : List (String × Value)) (k : String) (v : Value) :
    keysOf (jsSet f k v) =
      if k ∈ keysOf f then keysOf f else keysOf f ++ [k] := by
  induction f with
  | nil => simp [jsSet, keysOf]
  | cons p rest ih =>
      obtain ⟨k', v'⟩ := p
      by_cases hk : k' = k
      · subst hk
        simp [jsSet, keysOf]
      · simp only [jsSet, if_neg hk, keysOf, List.map_cons,
          List.mem_cons] at ih ⊢
        rw [ih]
        by_cases hm : k ∈ List.map (fun x => x.1) rest
        · simp [hm, Ne.symm hk]
        · simp [hm, Ne.symm hk]

theorem mem_keysOf_jsSet {f : List (String × Value)} {k' : String}
    (k : String) (v : Value) (h : k' ∈ keysOf f) :
    k' ∈ keysOf (jsSet f k v) := by
  rw [keysOf_jsSet]
  by_cases hm : k ∈ keysOf f <;> simp [hm, h]

theorem self_mem_keysOf_jsSet (f : List (String × Value)) (k : String)
    (v : Value) : k ∈ keysOf (jsSet f k v) := by
  rw [keysOf_jsSet]
  by_cases hm : k ∈ keysOf f <;> simp [hm]

theorem nodup_keysOf_jsSet {f : List (String × Value)} (k : String)
    (v : Value) (h : (keysOf f).Nodup) : (keysOf (jsSet f k v)).Nodup := by
  rw [keysOf_jsSet]
  by_cases hm : k ∈ keysOf f
  · simpa [hm] using h
  · rw [if_neg hm]
    refine List.nodup_append.mpr ⟨h, List.nodup_singleton _,
      fun a ha hak => ?_⟩
    simp at hak
    exact hm (hak ▸ ha)

theorem foldl_jsSet_extends (kf : String → String) (vf : String → Value) :
    ∀ (names : List String) (f : List (String × Value)),
      ∃ δ, keysOf (names.foldl (fun acc d => jsSet acc (kf d) (vf d)) f)
            = keysOf f ++ δ ∧
          ((keysOf f).Nodup →
            (keysOf (names.foldl (fun acc d => jsSet acc (kf d) (vf d)) f)).Nodup) := by
  intro names
  induction names with
  | nil => intro f; exact ⟨[], by simp, fun h => by simpa using h⟩
  | cons d rest ih =>
      intro f
      obtain ⟨δ', h1, h2⟩ := ih (jsSet f (kf d) (vf d))
      simp only [List.foldl_cons]
      rw [keysOf_jsSet] at h1 h2
      by_cases hm : kf d ∈ keysOf f
      · exact ⟨δ', by simpa [hm] using h1,
          fun hnd => h2 (by simpa [hm] using hnd)⟩
      · refine ⟨kf d :: δ', ?_, ?_⟩
        · simpa [hm] using h1
        · intro hnd
          apply h2
          rw [if_neg hm]
          refine List.nodup_append.mpr ⟨hnd, List.nodup_singleton _,
            fun a ha hak => ?_⟩
          simp at hak
          exact hm (hak ▸ ha)

/-! ## Run invariants of the resolver

`Inv` is the health of the threaded state: the table holds each key
once, no reference key was ever `loadSchema`d twice, and every fetched
key is in the table.  `StepOk st st'` says one interpreter step only
appends to the logs, only extends the table's key list, adds exactly the
newly fetched keys when it hoisted nothing, and preserves `Inv`. -/

def Inv (st : St) : Prop :=
  (keysOf st.defs).Nodup ∧
  (st.fetched.map keyFrom).Nodup ∧
  ∀ k ∈ st.fetched.map keyFrom, k ∈ keysOf st.defs

def StepOk (st st' : St) : Prop :=
  ∃ δf δh δk,
    st'.fetched = st.fetched ++ δf ∧
    st'.hoisted = st.hoisted ++ δh ∧
    keysOf st'.defs = keysOf st.defs ++ δk ∧
    (δh = [] → δk = δf.map keyFrom) ∧
    (Inv st → Inv st')

theorem StepOk.rfl {st : St} : StepOk st st :=
  ⟨[], [], [], by simp, by simp, by simp, by simp, id⟩

theorem StepOk.trans {s1 s2 s3 : St} (h12 : StepOk s1 s2)
    (h23 : StepOk s2 s3) : StepOk s1 s3 := by
  obtain ⟨a1, b1, c1, hf1, hh1, hk1, hc1, hi1⟩ := h12
  obtain ⟨a2, b2, c2, hf2, hh2, hk2, hc2, hi2⟩ := h23
  refine ⟨a1 ++ a2, b1 ++ b2, c1 ++ c2, ?_, ?_, ?_, ?_, fun h => hi2 (hi1 h)⟩
  · rw [hf2, hf1, List.append_assoc]
  · rw [hh2, hh1, List.append_assoc]
  · rw [hk2, hk1, List.append_assoc]
  · intro hb
    rw [List.append_eq_nil] at hb
    rw [hc1 hb.1, hc2 hb.2, List.map_append]

theorem stepOk_fetchInsert (st : St) (s : String) (schema : Value)
    (hfresh : jsHasKey st.defs (keyFrom s) = false) :
    StepOk st { st with fetched := st.fetched ++ [s],
                        defs := jsSet st.defs (keyFrom s) schema } := by
  have hmem : keyFrom s ∉ keysOf st.defs := by
    intro hm
    rw [jsHasKey_iff.mpr hm] at hfresh
    exact absurd hfresh (by simp)
  refine ⟨[s], [], [keyFrom s], by simp, by simp, ?_, by simp, ?_⟩
  · simp only
    rw [keysOf_jsSet, if_neg hmem]
  · rintro ⟨h1, h2, h3⟩
    refine ⟨nodup_keysOf_jsSet _ _ h1, ?_, ?_⟩
    · simp only [List.map_append, List.map_cons, List.map_nil]
      refine List.nodup_append.mpr ⟨h2, List.nodup_singleton _,
        fun a ha hak => ?_⟩
      simp at hak
      exact hmem (hak ▸ h3 a ha)
    · intro k hk
      simp only [List.map_append, List.map_cons, List.map_nil,
        List.mem_append, List.mem_singleton] at hk
      rcases hk with hk | hk
      · exact mem_keysOf_jsSet _ _ (h3 k hk)
      · rw [hk]
        exact self_mem_keysOf_jsSet _ _ _

theorem stepOk_update (st : St) (k : String) (v : Value)
    (hmem : k ∈ keysOf st.defs) :
    StepOk st { st with defs := jsSet st.defs k v } := by
  have hkeys : keysOf (jsSet st.defs k v) = keysOf st.defs := by
    rw [keysOf_jsSet, if_pos hmem]
  refine ⟨[], [], [], by simp, by simp, by simp [hkeys], by simp, ?_⟩
  rintro ⟨h1, h2, h3⟩
  exact ⟨by simpa [hkeys] using h1, h2, fun a ha => by
    rw [show keysOf ({ st with defs := jsSet st.defs k v } : St).defs =
      keysOf st.defs from hkeys]; exact h3 a ha⟩

theorem hoistStep_stepOk {ctx : Ctx} {fields : List (String × Value)}
    {st : St} {r : Value × St} (h : hoistStep ctx fields st = .ok r) :
    StepOk st r.2 := by
  unfold hoistStep at h
  split at h
  · split at h
    · exact absurd h (by simp)
    · rename_i localDefs heq
      cases h
      obtain ⟨δ, hδ, hnd⟩ := foldl_jsSet_extends
        (fun d => keyFrom ctx.uri ++ ":$defs:" ++ d)
        (fun d => member ((jsGet fields "$defs").getD vUndef) d)
        localDefs st.defs
      refine ⟨[], localDefs.map (fun d => keyFrom ctx.uri ++ ":$defs:" ++ d),
        δ, by simp, by simp, by simpa using hδ, ?_, ?_⟩
      · intro hb
        simp only [List.map_eq_nil_iff] at hb
        subst hb
        simp only [List.foldl_nil] at hδ
        have : δ = [] := by
          have := hδ
          rw [List.self_eq_append_right] at this
          exact this
        simp [this]
      · rintro ⟨h1, h2, h3⟩
        refine ⟨by simpa using hnd h1, h2, fun a ha => ?_⟩
        simp only
        rw [hδ]
        exact List.mem_append_left _ (h3 a ha)
  · cases h
    exact StepOk.rfl

/-- Every piece of the resolver's traversal is a `StepOk` step: logs and
table only grow, the new table keys are exactly the newly fetched keys
when nothing was hoisted, and the health invariant `Inv` is preserved.
Proved for all six mutually recursive functions at once by induction on
the fuel. -/
theorem resolverStepOk : ∀ fuel : Nat,
    (∀ ctx node st r, visitor fuel ctx node st = .ok r → StepOk st r.2) ∧
    (∀ ctx fields st r, visitorObj fuel ctx fields st = .ok r →
      StepOk st r.2) ∧
    (∀ ctx s st st', visitorFetch fuel ctx s st = .ok st' →
      StepOk st st') ∧
    (∀ ctx node st r, traverseDoc fuel ctx node st = .ok r →
      StepOk st r.2) ∧
    (∀ ctx fields st r, traverseDocFields fuel ctx fields st = .ok r →
      StepOk st r.2) ∧
    (∀ ctx items st r, traverseDocItems fuel ctx items st = .ok r →
      StepOk st r.2) := by
  intro fuel
  induction fuel with
  | zero =>
      refine ⟨?_, ?_, ?_, ?_, ?_, ?_⟩ <;> intro _ _ _ _ h <;>
        simp [visitor, visitorObj, visitorFetch, traverseDoc,
          traverseDocFields, traverseDocItems] at h
  | succ n ih =>
      obtain ⟨ihV, ihVO, ihVF, ihTD, ihTF, ihTI⟩ := ih
      refine ⟨?_, ?_, ?_, ?_, ?_, ?_⟩
      · -- visitor
        intro ctx node st r h
        simp only [visitor] at h
        split at h
        · cases h; exact StepOk.rfl
        · split at h
          · exact ihVO _ _ _ _ h
          · cases h; exact StepOk.rfl
      · -- visitorObj
        intro ctx fields st r h
        simp only [visitorObj] at h
        split at h
        · cases h; exact StepOk.rfl
        · split at h
          · split at h
            · rename_i r'
              split at h
              · cases h; exact StepOk.rfl
              · split at h
                · rename_i s
                  split at h
                  · cases h; exact StepOk.rfl
                  · split at h
                    · simp at h
                    · rename_i st' hfetch
                      exact (ihVF _ _ _ _ hfetch).trans (hoistStep_stepOk h)
                · cases h; exact StepOk.rfl
            · cases h; exact StepOk.rfl
          · exact hoistStep_stepOk h
      · -- visitorFetch
        intro ctx s st st' h
        simp only [visitorFetch] at h
        split at h
        · cases h; exact StepOk.rfl
        · rename_i hguard
          split at h
          · simp at h
          · rename_i schema hload
            split at h
            · simp at h
            · rename_i schema' st₂ htrav
              injection h with h2
              subst h2
              have hfresh : jsHasKey st.defs (keyFrom s) = false := by
                simpa using hguard
              have hA := stepOk_fetchInsert st s schema hfresh
              have hB := ihTD _ _ _ _ htrav
              have hmem : keyFrom s ∈ keysOf st₂.defs := by
                obtain ⟨_, _, δk, _, _, hk, _, _⟩ := hB
                rw [show keysOf st₂.defs = _ from hk]
                exact List.mem_append_left _ (self_mem_keysOf_jsSet _ _ _)
              exact (hA.trans hB).trans (stepOk_update st₂ _ schema' hmem)
      · -- traverseDoc
        intro ctx node st r h
        simp only [traverseDoc] at h
        split at h
        · simp at h
        · rename_i p hvis
          obtain ⟨node', st₁⟩ := p
          split at h
          · split at h
            · simp at h
            · rename_i q hfl
              cases h
              exact (ihV _ _ _ _ hvis).trans (ihTF _ _ _ _ hfl)
          · split at h
            · simp at h
            · rename_i q hit
              cases h
              exact (ihV _ _ _ _ hvis).trans (ihTI _ _ _ _ hit)
          · cases h
            exact ihV _ _ _ _ hvis
      · -- traverseDocFields
        intro ctx fields st r h
        match fields with
        | [] =>
            simp only [traverseDocFields] at h
            cases h; exact StepOk.rfl
        | (k, v) :: rest =>
            simp only [traverseDocFields] at h
            split at h
            · simp at h
            · rename_i v' st₁ hd
              split at h
              · simp at h
              · rename_i rest' st₂ htl
                cases h
                have h1 : StepOk st st₁ := ihTD _ _ _ _ hd
                have h2 : StepOk st₁ st₂ := ihTF _ _ _ _ htl
                exact h1.trans h2
      · -- traverseDocItems
        intro ctx items st r h
        match items with
        | [] =>
            simp only [traverseDocItems] at h
            cases h; exact StepOk.rfl
        | v :: rest =>
            simp only [traverseDocItems] at h
            split at h
            · simp at h
            · rename_i v' st₁ hd
              split at h
              · simp at h
              · rename_i rest' st₂ htl
                cases h
                have h1 : StepOk st st₁ := ihTD _ _ _ _ hd
                have h2 : StepOk st₁ st₂ := ihTI _ _ _ _ htl
                exact h1.trans h2

theorem jsHasKey_jsSet_self (f : List (String × Value)) (k : String)
    (v : Value) : jsHasKey (jsSet f k v) k = true :=
  jsHasKey_iff.mpr (self_mem_keysOf_jsSet f k v)

theorem jsHasKey_jsSet_ne {f : List (String × Value)} {k k' : String}
    (v : Value) (hne : k' ≠ k) :
    jsHasKey (jsSet f k v) k' = jsHasKey f k' := by
  by_cases hm : k' ∈ keysOf f
  · rw [jsHasKey_iff.mpr hm, jsHasKey_iff.mpr (mem_keysOf_jsSet _ _ hm)]
  · have h1 : jsHasKey f k' = false := by
      cases hb : jsHasKey f k'
      · rfl
      · exact absurd (jsHasKey_iff.mp hb) hm
    have h2 : jsHasKey (jsSet f k v) k' = false := by
      cases hb : jsHasKey (jsSet f k v) k'
      · rfl
      · exfalso
        have hmem := jsHasKey_iff.mp hb
        rw [keysOf_jsSet] at hmem
        by_cases hk : k ∈ keysOf f
        · rw [if_pos hk] at hmem; exact hm hmem
        · rw [if_neg hk] at hmem
          rcases List.mem_append.mp hmem with h | h
          · exact hm h
          · simp at h; exact hne h
    rw [h1, h2]

mutual

/-- Every string-valued `$ref` member in a tree (used to state what
remains referenced in the returned composition). -/
def collectRefs : Value → List String
  | vObj fields =>
      (match jsGet fields "$ref" with
       | some (vStr s) => [s]
       | _ => []) ++ collectRefsFields fields
  | vArr items => collectRefsItems items
  | _ => []

def collectRefsFields : List (String × Value) → List String
  | [] => []
  | (_, v) :: rest => collectRefs v ++ collectRefsFields rest

def collectRefsItems : List Value → List String
  | [] => []
  | v :: rest => collectRefs v ++ collectRefsItems rest

end

/-- Member-path read over object trees (probing concrete outputs). -/
def vGetPath (v : Value) (ks : List String) : Option Value :=
  match ks with
  | [] => some v
  | k :: rest =>
      match v with
      | vObj fields =>
          match jsGet fields k with
          | some w => vGetPath w rest
          | none => none
      | _ => none

theorem _set_error {o : Value} {p : String} {v : Value} {e : String}
    (h : _set o p v = .error e) :
    e = "TypeError: obj needs to be an object" := by
  unfold _set at h
  split at h
  · cases h; rfl
  · exact absurd h (by simp)

theorem mergeL10nList_error {s : Value} {items : List Value} {e : String}
    (h : mergeL10nList s items = .error e) :
    e = "TypeError: Cannot destructure properties of a nullish value" ∨
      e = "TypeError: obj needs to be an object" := by
  induction items generalizing s with
  | nil => simp [mergeL10nList] at h
  | cons item rest ih =>
      unfold mergeL10nList at h
      split at h
      · cases h; exact Or.inl rfl
      · split at h
        · exact ih h
        · rename_i e' hset
          cases h
          exact Or.inr (_set_error hset)

theorem mergeL10nEntries_error {s : Value}
    {entries : List (String × Value)} {e : String}
    (h : mergeL10nEntries s entries = .error e) :
    e = "TypeError: obj needs to be an object" := by
  induction entries generalizing s with
  | nil => simp [mergeL10nEntries] at h
  | cons p rest ih =>
      unfold mergeL10nEntries at h
      split at h
      · exact ih h
      · rename_i e' hset
        cases h
        exact _set_error hset

theorem objEntries_error {v : Value} {e : String}
    (h : objEntries v = .error e) :
    e = "TypeError: Cannot convert undefined or null to object" := by
  cases v <;> simp [objEntries] at h <;> exact h.symm

/-- The success/error dichotomy of `_delete`'s loop: every reported
result carries `true`, and the only possible failure is the `splice`
call on a non-array holder. -/
theorem delLoop_cases : ∀ (segs : List Seg) (o : Value),
    (∃ w, delLoop o segs = .ok (w, true)) ∨
      delLoop o segs = .error "TypeError: o.splice is not a function" := by
  intro segs
  induction segs with
  | nil => intro o; exact Or.inl ⟨o, rfl⟩
  | cons seg rest ih =>
      intro o
      match rest with
      | [] =>
          by_cases hidx : seg.isArrayIndex
          · cases o <;> simp [delLoop, hidx]
          · cases o <;> simp [delLoop, hidx]
            · rename_i items
              cases hc : canonIdx seg.key
              · simp
              · rename_i n
                by_cases hn : n < items.length <;> simp [hn]
      | seg2 :: rest2 =>
          unfold delLoop
          split
          · split
            · rcases ih (member o seg.key) with ⟨w, hw⟩ | hw
              · rw [hw]
                cases o <;> simp
              · rw [hw]
                simp
            · exact Or.inl ⟨o, rfl⟩
          · exact Or.inl ⟨o, rfl⟩

/-- The claim's description of `get` (C7), written from the spec's
words: walk the segments; a `null`/`undefined` intermediate yields the
default, an absent key (on a record/array node) yields the default, and
a present final key yields the stored value as-is.  The cases the claim
does not determine (no segments at all, or a key addressed on a
non-container scalar) are `none`. -/
def getAsClaimed (o : Value) (segs : List Seg) (d : Value) : Option Value :=
  match segs with
  | [] => none
  | seg :: rest =>
      if isNullish o then some d
      else
        match o with
        | vObj _ | vArr _ =>
            if memberIn o seg.key then
              match rest with
              | [] => some (member o seg.key)
              | _ :: _ => getAsClaimed (member o seg.key) rest d
            else some d
        | _ => none

theorem getLoop_refines : ∀ (segs : List Seg) (o d v : Value),
    getAsClaimed o segs d = some v → getLoop o segs d = .ok v := by
  intro segs
  induction segs with
  | nil => intro o d v h; simp [getAsClaimed] at h
  | cons seg rest ih =>
      intro o d v h
      unfold getAsClaimed at h
      unfold getLoop
      by_cases hnull : isNullish o = true
      · rw [if_pos hnull] at h ⊢
        cases h
        rfl
      · rw [if_neg hnull] at h ⊢
        have hnull' : isNullish o = false := by
          cases hb : isNullish o
          · rfl
          · exact absurd hb hnull
        cases o with
        | vObj fields =>
            by_cases hmem : memberIn (vObj fields) seg.key = true
            · rw [if_pos hmem] at h
              match rest with
              | [] =>
                  cases h
                  simp [hmem]
              | r :: rs =>
                  simp [hmem]
                  exact ih _ _ _ h
            · rw [if_neg hmem] at h
              cases h
              cases rest <;> simp [hmem]
        | vArr items =>
            by_cases hmem : memberIn (vArr items) seg.key = true
            · rw [if_pos hmem] at h
              match rest with
              | [] =>
                  cases h
                  simp [hmem]
              | r :: rs =>
                  simp [hmem]
                  exact ih _ _ _ h
            · rw [if_neg hmem] at h
              cases h
              cases rest <;> simp [hmem]
        | vNull => exact absurd (by rfl : isNullish vNull = true) hnull
        | vUndef => exact absurd (by rfl : isNullish vUndef = true) hnull
        | vBool b => exact Option.noConfusion h
        | vNum n => exact Option.noConfusion h
        | vStr s => exact Option.noConfusion h

/-! ## Concrete fixtures

Small provider environments used by the closed counterexamples and by
the witnesses of the quantified theorems.  `demoProviders` serves a root
document referencing an external person document that contains both an
internal anchor reference and a local `$defs` member; `c1Providers`
serves a root that references the same address document twice with no
local definitions anywhere. -/

def dummyEnv : FetchEnv := ⟨fun _ => ⟨false, 404, vNull⟩⟩

def provFile : String → Except String Value := fun a =>
  if a = "file://base/root.schema.json" then
    .ok (vObj [("properties", vObj [
      ("p", vObj [("$ref", vStr "person.schema.json")]),
      ("q", vObj [("$ref", vStr "person.schema.json")])])])
  else if a = "file://base/person.schema.json" then
    .ok (vObj [("x", vObj [("$ref", vStr "#/$defs/name")]),
               ("$defs", vObj [("name", vObj [("type", vStr "string")])])])
  else .error "ENOENT"

def demoProviders : Providers := [("file", provFile)]

def demoRun : Except String (Value × St) :=
  load 20 dummyEnv "root.schema.json" "file://base/" none (some demoProviders)

def provC1 : String → Except String Value := fun a =>
  if a = "file://c1/root.schema.json" then
    .ok (vObj [("properties", vObj [
      ("home", vObj [("$ref", vStr "address.schema.json")]),
      ("work", vObj [("$ref", vStr "address.schema.json")])])])
  else if a = "file://c1/address.schema.json" then
    .ok (vObj [("type", vStr "object"),
               ("properties", vObj [("street", vObj [("type", vStr "string")])])])
  else .error "ENOENT"

def c1Providers : Providers := [("file", provC1)]

def c1Run : Except String (Value × St) :=
  load 20 dummyEnv "root.schema.json" "file://c1/" none (some c1Providers)

/-- A provider whose localization sidecar fetch *resolves* with
`undefined` (a false-ish value) instead of throwing. -/
def provL10nUndef : String → Except String Value := fun a =>
  if a = "file://base/root.schema.json" then .ok (vObj [("type", vStr "object")])
  else .ok vUndef

/-- A provider whose localization sidecar fetch *throws*. -/
def provL10nThrow : String → Except String Value := fun a =>
  if a = "file://base/root.schema.json" then .ok (vObj [("type", vStr "object")])
  else .error "ENOENT"

/-- Projections of a successful `load` result, for closed statements
about concrete runs. -/
def outOf (r : Except String (Value × St)) : Value :=
  match r with
  | .ok (o, _) => o
  | .error _ => vNull

def stOf (r : Except String (Value × St)) : St :=
  match r with
  | .ok (_, s) => s
  | .error _ => ⟨[], [], []⟩

/-- C1.  Every successful `load` call builds an idempotent Global
Definition Table: the table holds each reference key exactly once, no
reference key is ever passed to `loadSchema` twice (the `fetched` log's
keys are duplicate-free), the root is the first fetch, and — when no
local `$defs` hoisting occurred — the table's keys are exactly the keys
of the fetched documents in discovery order, i.e. with N distinct
transitively reached external targets the table has exactly N+1 entries
(the root plus one per target).  Moreover a reference key already
present in the table is only rewritten: the visitor returns the node
with `$ref` replaced by `#/$defs/<key>` and the state — table and fetch
log — completely unchanged. -/
theorem load_table_idempotent :
    (∀ fuel env uri bp lang provs out st,
      load fuel env uri bp lang provs = .ok (out, st) →
        (keysOf st.defs).Nodup ∧
        (st.fetched.map keyFrom).Nodup ∧
        st.fetched.head? = some uri ∧
        (st.hoisted = [] → keysOf st.defs = st.fetched.map keyFrom)) ∧
    (∀ fuel ctx fields st s,
      jsGet fields "$ref" = some (vStr s) →
      strStartsWith s "#" = false →
      jsHasKey st.defs (keyFrom s) = true →
      jsHasKey fields "$defs" = false →
      visitor (fuel + 3) ctx (vObj fields) st =
        .ok (vObj (jsSet fields "$ref" (vStr ("#/$defs/" ++ keyFrom s))),
          st)) := by
  constructor
  · intro fuel env uri bp lang provs out st h
    unfold load at h
    split at h
    · exact absurd h (by simp)
    · rename_i root hroot
      split at h
      · exact absurd h (by simp)
      · rename_i root' st₂ htrav
        injection h with h2
        injection h2 with hout hst
        subst hst
        have hstep : StepOk ⟨jsSet [] (keyFrom uri) root, [uri], []⟩ st₂ :=
          (resolverStepOk fuel).2.2.2.1 _ _ _ _ htrav
        obtain ⟨δf, δh, δk, hf, hh, hk, hcond, hinv⟩ := hstep
        have hkeys0 : keysOf (jsSet ([] : List (String × Value))
            (keyFrom uri) root) = [keyFrom uri] := by
          simp [jsSet, keysOf]
        have hInv0 : Inv ⟨jsSet [] (keyFrom uri) root, [uri], []⟩ := by
          refine ⟨by simp [hkeys0], by simp, ?_⟩
          intro k hkm
          simp at hkm
          simp [hkeys0, hkm]
        have hInv2 := hinv hInv0
        obtain ⟨hI1, hI2, hI3⟩ := hInv2
        have hkeyMem : keyFrom uri ∈ keysOf st₂.defs := by
          rw [show keysOf st₂.defs = _ from hk, hkeys0]
          exact List.mem_append_left _ (by simp)
        have hkeysFinal : keysOf (jsSet st₂.defs (keyFrom uri) root') =
            keysOf st₂.defs := by
          rw [keysOf_jsSet, if_pos hkeyMem]
        refine ⟨?_, ?_, ?_, ?_⟩
        · simpa [hkeysFinal] using hI1
        · simpa using hI2
        · simp only at hf ⊢
          rw [show st₂.fetched = _ from hf]
          simp
        · intro hhoist
          simp only at hhoist hh
          rw [show st₂.hoisted = _ from hh] at hhoist
          simp at hhoist
          have hδk := hcond hhoist
          simp only [hkeysFinal]
          rw [show keysOf st₂.defs = _ from hk, hkeys0, hδk,
            show st₂.fetched = _ from hf]
          simp [keyFrom]
  · intro fuel ctx fields st s h1 h2 h3 h4
    have href : jsHasKey fields "$ref" = true := jsGet_some_hasKey h1
    have h5 : jsHasKey (jsSet fields "$ref"
        (vStr ("#/$defs/" ++ keyFrom s))) "$defs" = false := by
      rw [jsHasKey_jsSet_ne _ (by decide)]
      exact h4
    simp [visitor, visitorObj, visitorFetch, hoistStep, typeOf, href,
      h1, h2, h3, h5]

/-- C1 witness: the concrete two-document run (root referencing the
address document twice, no local definitions) satisfies every conjunct
of the run-level statement. -/
theorem load_table_idempotent_witness :
    (keysOf (stOf c1Run).defs).Nodup ∧
    ((stOf c1Run).fetched.map keyFrom).Nodup ∧
    (stOf c1Run).fetched.head? = some "root.schema.json" ∧
    keysOf (stOf c1Run).defs = (stOf c1Run).fetched.map keyFrom := by
  have h := load_table_idempotent.1 20 dummyEnv "root.schema.json"
    "file://c1/" none (some c1Providers) (outOf c1Run) (stOf c1Run)
    (by decide)
  exact ⟨h.1, h.2.1, h.2.2.1, h.2.2.2 (by decide)⟩

/-- C2.  Every successful `load` returns exactly
`{ $defs: <table>, $ref: "#/$defs/<rootKey>" }` — the root document is
stored inside the table (its key is present there), never inlined — and
every string-valued `$ref` occurring in the composition outside the
`$defs` member (that is, in the composition with its `$defs` member
deleted) is `#/$defs/<key>` for a key present in the table. -/
theorem load_composition_shape :
    ∀ fuel env uri bp lang provs out st,
      load fuel env uri bp lang provs = .ok (out, st) →
        out = vObj [("$defs", vObj st.defs),
          ("$ref", vStr ("#/$defs/" ++ keyFrom uri))] ∧
        jsHasKey st.defs (keyFrom uri) = true ∧
        ∀ s ∈ collectRefs (vObj (jsDelete [("$defs", vObj st.defs),
            ("$ref", vStr ("#/$defs/" ++ keyFrom uri))] "$defs")),
          ∃ k, s = "#/$defs/" ++ k ∧ jsHasKey st.defs k = true := by
  intro fuel env uri bp lang provs out st h
  unfold load at h
  split at h
  · exact absurd h (by simp)
  · rename_i root hroot
    split at h
    · exact absurd h (by simp)
    · rename_i root' st₂ htrav
      injection h with h2
      injection h2 with hout hst
      subst hst
      subst hout
      refine ⟨rfl, jsHasKey_jsSet_self _ _ _, ?_⟩
      intro s hs
      simp only [jsDelete, if_pos rfl, collectRefs, collectRefsFields,
        jsGet, List.find?_cons] at hs
      simp at hs
      exact ⟨keyFrom uri, hs, jsHasKey_jsSet_self _ _ _⟩

/-- C2 witness: the concrete two-document run has the claimed shape,
with the root's key in the table. -/
theorem load_composition_shape_witness :
    outOf c1Run = vObj [("$defs", vObj (stOf c1Run).defs),
      ("$ref", vStr ("#/$defs/" ++ keyFrom "root.schema.json"))] ∧
    jsHasKey (stOf c1Run).defs (keyFrom "root.schema.json") = true := by
  have h := load_composition_shape 20 dummyEnv "root.schema.json"
    "file://c1/" none (some c1Providers) (outOf c1Run) (stOf c1Run)
    (by decide)
  exact ⟨h.1, h.2.1⟩

/-- C3 counterexample.  In the concrete run whose external
`person.schema.json` document contains the anchor node
`{ $ref: "#/$defs/name" }`, the rewritten reference inside the *stored
person document* uses the ROOT document's key
(`root.schema.json:$defs:name`), not the owning sub-document's key
(`person.schema.json:$defs:name`): the visitor closure captures `load`'s
own `uri`, so the claim's "owning-document key" is wrong for externally
loaded sub-documents. -/
theorem anchor_rewrite_owning_key_cx :
    vGetPath (outOf demoRun)
        ["$defs", "person.schema.json", "x", "$ref"] =
      some (vStr "#/$defs/root.schema.json:$defs:name") ∧
    vGetPath (outOf demoRun)
        ["$defs", "person.schema.json", "x", "$ref"] ≠
      some (vStr "#/$defs/person.schema.json:$defs:name") := by
  constructor
  · decide
  · decide

/-- C3 as amended.  A visited node whose `$ref` is a string starting
with `#` is rewritten to
`#/$defs/<keyFrom(root uri)>:<keyFrom(anchor text minus "#/")>` — the
key prefix is always the key of the ROOT document passed to `load`
(`ctx.uri`, the closure-captured argument), whichever document contains
the node — and nothing is fetched: the visitor returns with the state
(table and fetch log) completely unchanged. -/
theorem anchor_rewrite_uses_root_key :
    ∀ fuel ctx fields st s,
      jsGet fields "$ref" = some (vStr s) →
      strStartsWith s "#" = true →
      visitor (fuel + 2) ctx (vObj fields) st =
        .ok (vObj (jsSet fields "$ref"
          (vStr ("#/$defs/" ++ keyFrom ctx.uri ++ ":" ++
            keyFrom (strDrop s 2)))), st) := by
  intro fuel ctx fields st s h1 h2
  have href : jsHasKey fields "$ref" = true := jsGet_some_hasKey h1
  simp [visitor, visitorObj, typeOf, href, h1, h2]

/-- C3 witness for the amended statement: a concrete anchor node in a
context whose root uri is `root.schema.json`. -/
theorem anchor_rewrite_uses_root_key_witness :
    visitor 2 ⟨"root.schema.json", "file://base/", "en-US", []⟩
        (vObj [("$ref", vStr "#/$defs/name")]) ⟨[], [], []⟩ =
      .ok (vObj [("$ref",
        vStr "#/$defs/root.schema.json:$defs:name")], ⟨[], [], []⟩) := by
  have h := anchor_rewrite_uses_root_key 0
    ⟨"root.schema.json", "file://base/", "en-US", []⟩
    [("$ref", vStr "#/$defs/name")] ⟨[], [], []⟩ "#/$defs/name"
    (by decide) (by decide)
  simpa using h

/-- C4.  A visited object node whose `$ref` member holds a non-string
value is never treated as a schema reference: the visitor returns the
node verbatim and the state (table, fetch log, hoist log) untouched —
no fetch, no rewrite, and (because the source returns early) not even
`$defs` hoisting on that node. -/
theorem nonstring_ref_untouched :
    ∀ fuel ctx fields st v,
      jsGet fields "$ref" = some v →
      typeOf v ≠ "string" →
      visitor (fuel + 2) ctx (vObj fields) st = .ok (vObj fields, st) := by
  intro fuel ctx fields st v h1 h2
  have href : jsHasKey fields "$ref" = true := jsGet_some_hasKey h1
  cases v <;> simp [typeOf] at h2 <;>
    simp [visitor, visitorObj, typeOf, href, h1]

/-- C4 witness: the spec's own example node
`{ $ref: { type: "string", format: "uri" } }` passes through unchanged
even in the presence of a `$defs` sibling. -/
theorem nonstring_ref_untouched_witness :
    visitor 2 ⟨"root.schema.json", "file://base/", "en-US", []⟩
        (vObj [("$ref", vObj [("type", vStr "string"),
          ("format", vStr "uri")])]) ⟨[], [], []⟩ =
      .ok (vObj [("$ref", vObj [("type", vStr "string"),
        ("format", vStr "uri")])], ⟨[], [], []⟩) := by
  have h := nonstring_ref_untouched 0
    ⟨"root.schema.json", "file://base/", "en-US", []⟩
    [("$ref", vObj [("type", vStr "string"), ("format", vStr "uri")])]
    ⟨[], [], []⟩ (vObj [("type", vStr "string"), ("format", vStr "uri")])
    (by decide) (by decide)
  simpa using h

/-- C5 (code bug).  The claim — and the source's own comment
("localization doesn't exist, so silently skip") together with the
sibling implementation that appends `?? {}` — intend a false-ish
localization result to be recovered as an empty overlay.  But the `try`
only guards the *fetch*: a provider that *resolves* with `undefined`
(or `null`) leaves `l10n` nullish, and `Object.entries(l10n)` then
throws a `TypeError` that aborts `loadSchema`.  First conjunct: the
failing input (sidecar fetch resolves with `undefined`) rejects instead
of resolving with the primary document.  Second conjunct: the *throwing*
sidecar fetch, as the claim also covers, is indeed recovered — the
primary document is returned untouched. -/
theorem l10n_falseish_return_crashes :
    loadSchema "root.schema.json" "file://base/" "fr-FR"
        [("file", provL10nUndef)] =
      .error "TypeError: Cannot convert undefined or null to object" ∧
    loadSchema "root.schema.json" "file://base/" "fr-FR"
        [("file", provL10nThrow)] =
      .ok (vObj [("type", vStr "object")]) := by
  constructor
  · decide
  · decide

/-- C6.  `loadSchema` (and `load`, which propagates it) rejects with
`JSONSCHEMA_LOADER_PROTOCOL_<PROTOCOL>_NOT_IMPLEMENTED` — the uppercased
protocol token of the resolved URI — exactly when `options.providers`
has no entry for that protocol: (1) a missing entry always produces
precisely that error; (2) when an entry exists, any error message with
the `JSONSCHEMA_LOADER_PROTOCOL_` prefix can only have originated in the
provider itself (every resolver-generated failure on that path is a
`TypeError`); (3) the claim's concrete example:
`load('root.schema.json', 'ftp://example.com/', { providers: {} })`
rejects with `JSONSCHEMA_LOADER_PROTOCOL_FTP_NOT_IMPLEMENTED`. -/
theorem protocol_not_implemented_iff :
    (∀ uri bp lang provs p href,
      urlResolve uri bp = .ok (p, href) →
      lookupProv provs p = none →
      loadSchema uri bp lang provs =
        .error ("JSONSCHEMA_LOADER_PROTOCOL_" ++ strToUpper p ++
          "_NOT_IMPLEMENTED")) ∧
    (∀ uri bp lang provs p href f m,
      urlResolve uri bp = .ok (p, href) →
      lookupProv provs p = some f →
      loadSchema uri bp lang provs = .error m →
      strStartsWith m "JSONSCHEMA_LOADER_PROTOCOL_" = true →
      ∃ a, f a = .error m) ∧
    (∀ fuel env,
      load fuel env "root.schema.json" "ftp://example.com/" none
          (some []) =
        .error "JSONSCHEMA_LOADER_PROTOCOL_FTP_NOT_IMPLEMENTED") := by
  refine ⟨?_, ?_, ?_⟩
  · intro uri bp lang provs p href hurl hnone
    unfold loadSchema
    rw [hurl]
    simp only [hnone]
  · intro uri bp lang provs p href f m hurl hsome h hpre
    unfold loadSchema at h
    rw [hurl] at h
    simp only [hsome] at h
    split at h
    · rename_i e hfe
      cases h
      exact ⟨href, hfe⟩
    · rename_i schema hfs
      split at h
      · rename_i items
        rcases mergeL10nList_error h with he | he <;>
          rw [he] at hpre <;> exact absurd hpre (by decide)
      · split at h
        · rename_i entries hent
          have := mergeL10nEntries_error h
          rw [this] at hpre
          exact absurd hpre (by decide)
        · rename_i e hent
          cases h
          have := objEntries_error hent
          rw [this] at hpre
          exact absurd hpre (by decide)
  · intro fuel env
    rfl

/-- C6 witness: a file-protocol URI against a map holding only an http
provider, and the claim's own ftp example at the `load` level. -/
theorem protocol_not_implemented_iff_witness :
    loadSchema "root.schema.json" "file://base/" "en-US"
        (defaultProviders dummyEnv) =
      .error "JSONSCHEMA_LOADER_PROTOCOL_FILE_NOT_IMPLEMENTED" ∧
    load 5 dummyEnv "root.schema.json" "ftp://example.com/" none
        (some []) =
      .error "JSONSCHEMA_LOADER_PROTOCOL_FTP_NOT_IMPLEMENTED" := by
  constructor
  · have h := protocol_not_implemented_iff.1 "root.schema.json"
      "file://base/" "en-US" (defaultProviders dummyEnv) "file"
      "file://base/root.schema.json" (by decide) (by rfl)
    simpa using h
  · exact protocol_not_implemented_iff.2.2 5 dummyEnv

/-- C7.  For every record root, `_get` behaves as the claim describes
wherever the claim's description determines an answer (`getAsClaimed`):
a `null`/`undefined` intermediate or an absent addressed key yields the
supplied default, and a present final key yields the stored value as-is
(including an explicitly `undefined` one) — key existence, not
truthiness.  Second conjunct: the claim's concrete example,
`_get({ a: null }, 'a.b', 'default') = 'default'`. -/
theorem get_key_existence :
    (∀ (root : Value) (path : String) (d v : Value),
      typeOf root = "object" →
      getAsClaimed root (itFromPath path) d = some v →
      _get root path d = .ok v) ∧
    _get (vObj [("a", vNull)]) "a.b" (vStr "default") =
      .ok (vStr "default") := by
  constructor
  · intro root path d v hroot h
    unfold _get
    rw [if_neg (by simp [hroot])]
    exact getLoop_refines _ _ _ _ h
  · decide

/-- C7 witness: a present-but-`undefined` final key is returned as-is
(not replaced by the default), via the theorem at a concrete input. -/
theorem get_key_existence_witness :
    _get (vObj [("a", vObj [("b", vUndef)])]) "a.b" (vStr "default") =
      .ok vUndef := by
  exact get_key_existence.1 (vObj [("a", vObj [("b", vUndef)])]) "a.b"
    (vStr "default") vUndef (by decide) (by decide)

/-- C8 counterexample.  The claim says `set`/`delete` type-fail iff the
root is not a record/array and that array roots always proceed; but the
root check is `typeOf(obj) !== 'object'` and `typeOf` of an array is
`'array'`, so array roots are rejected too (first two conjuncts).  The
claim also says `delete` always succeeds past the root check; but an
array-index final segment over a non-array holder calls `o.splice` on an
object, a `TypeError` (third conjunct). -/
theorem accessor_array_root_cx :
    _set (vArr [vNum 1]) "[0]" (vNum 2) =
      .error "TypeError: obj needs to be an object" ∧
    _delete (vArr [vNum 10, vNum 20]) "[0]" =
      .error "TypeError: obj needs to be an object" ∧
    _delete (vObj [("a", vObj [])]) "a[0]" =
      .error "TypeError: o.splice is not a function" := by
  refine ⟨by decide, by decide, by decide⟩

/-- C8 as amended.  `_set` and `_delete` fail with the root type error
exactly when the root is not a record (a plain object): arrays are
rejected too.  For record roots `_set` never raises a type error, and
`_delete` reports success (`true`) except when an array-index final
segment lands on a non-array holder, where `splice` raises a
`TypeError`. -/
theorem accessor_root_check :
    (∀ root path v, typeOf root ≠ "object" →
      _set root path v = .error "TypeError: obj needs to be an object") ∧
    (∀ root path v, typeOf root = "object" →
      _set root path v = .ok (setLoop root (itFromPath path) v)) ∧
    (∀ root path, typeOf root ≠ "object" →
      _delete root path = .error "TypeError: obj needs to be an object") ∧
    (∀ root path, typeOf root = "object" →
      (∃ w, _delete root path = .ok (w, true)) ∨
        _delete root path =
          .error "TypeError: o.splice is not a function") := by
  refine ⟨?_, ?_, ?_, ?_⟩
  · intro root path v h
    unfold _set
    rw [if_pos (by simpa using h)]
  · intro root path v h
    unfold _set
    rw [if_neg (by simp [h])]
  · intro root path h
    unfold _delete
    rw [if_pos (by simpa using h)]
  · intro root path h
    unfold _delete
    rw [if_neg (by simp [h])]
    exact delLoop_cases _ root

/-- C8 witness for the amended statement: an array root is rejected by
`_set`, a record root succeeds, and a record-rooted `delete` reports
success. -/
theorem accessor_root_check_witness :
    _set (vArr []) "x" (vNum 1) =
      .error "TypeError: obj needs to be an object" ∧
    _set (vObj []) "a[0].b" (vStr "x") =
      .ok (vObj [("a", vArr [vObj [("b", vStr "x")]])]) ∧
    _delete (vObj [("a", vArr [vNum 10, vNum 20, vNum 30])]) "a[1]" =
      .ok (vObj [("a", vArr [vNum 10, vNum 30])], true) := by
  refine ⟨accessor_root_check.1 (vArr []) "x" (vNum 1) (by decide), ?_, ?_⟩
  · have h := accessor_root_check.2.1 (vObj []) "a[0].b" (vStr "x")
      (by decide)
    rw [h]
    decide
  · rcases accessor_root_check.2.2.2
      (vObj [("a", vArr [vNum 10, vNum 20, vNum 30])]) "a[1]"
      (by decide) with ⟨w, hw⟩ | hw
    · rw [hw]
      have : w = vObj [("a", vArr [vNum 10, vNum 30])] := by
        have h2 : _delete (vObj [("a", vArr [vNum 10, vNum 20, vNum 30])])
            "a[1]" = .ok (vObj [("a", vArr [vNum 10, vNum 30])], true) := by
          decide
        rw [h2] at hw
        injection hw with hw2
        injection hw2 with hw3 hw4
        exact hw3.symm
      rw [this]
    · exact absurd hw (by decide)

/-- C9.  The Tree Visitor is exhaustive deterministic preorder search:
`visit` is invoked on the root at `"$"` first and then on record
children in key order and array children by ascending index (paths
appending `.<key>` / `[<index>]`, as `preorder` lists them); the result
is the first preorder node with a truthy `visit` (as `{node, path}`),
`none` when there is no truthy result; and the calls actually made are
exactly the preorder prefix up to and including the first truthy one —
nothing is visited after it. -/
theorem traverse_preorder_spec :
    ∀ (node : Value) (visit : Value → String → Bool),
      traverse node visit "$" =
        ((preorder node "$").find? (fun q => visit q.1 q.2),
          visitedPrefix (preorder node "$") (fun q => visit q.1 q.2)) ∧
      (preorder node "$").head? = some (node, "$") := by
  intro node visit
  refine ⟨traverse_eq_preorder node visit "$", ?_⟩
  cases node <;> rfl

/-- C10.  When `options.providers` is omitted, `load` substitutes a
default map instead of failing: the map holds exactly one provider,
under `http`, which throws `Error('HTTP_<status>')` on a non-OK fetch
response and returns the parsed body otherwise; any other scheme —
`https` and `file` included — still rejects with the
protocol-not-implemented error. -/
theorem default_providers_http :
    (∀ fuel env uri bp lang,
      load fuel env uri bp lang none =
        load fuel env uri bp lang (some (defaultProviders env))) ∧
    (∀ env, (defaultProviders env).map (fun q => q.1) = ["http"]) ∧
    (∀ env url f, lookupProv (defaultProviders env) "http" = some f →
      ((env.fetch url).ok = false →
        f url = .error ("HTTP_" ++ toString (env.fetch url).status)) ∧
      ((env.fetch url).ok = true → f url = .ok (env.fetch url).body)) ∧
    (∀ fuel env lang,
      load fuel env "root.schema.json" "https://example.com/" lang none =
        .error "JSONSCHEMA_LOADER_PROTOCOL_HTTPS_NOT_IMPLEMENTED" ∧
      load fuel env "root.schema.json" "file:///tmp/schemas/" lang none =
        .error "JSONSCHEMA_LOADER_PROTOCOL_FILE_NOT_IMPLEMENTED") := by
  refine ⟨?_, ?_, ?_, ?_⟩
  · intro fuel env uri bp lang
    rfl
  · intro env
    rfl
  · intro env url f hf
    have hf' : f = fun url =>
        (if ¬ (env.fetch url).ok then
          .error ("HTTP_" ++ toString (env.fetch url).status)
        else .ok (env.fetch url).body : Except String Value) := by
      simpa [lookupProv, defaultProviders, List.find?_cons] using hf.symm
    subst hf'
    constructor
    · intro hok
      simp [hok]
    · intro hok
      simp [hok]
  · intro fuel env lang
    exact ⟨rfl, rfl⟩

/-- An always-non-OK fetch environment (every response is a 500). -/
def env500 : FetchEnv := ⟨fun _ => ⟨false, 500, vNull⟩⟩

/-- C10 witness: against `env500` the default http provider throws
`HTTP_500`. -/
theorem default_providers_http_witness :
    (defaultProviders env500).map (fun q => q.1) = ["http"] ∧
    (match lookupProv (defaultProviders env500) "http" with
     | some f => f "http://example.com/a.schema.json" =
         .error "HTTP_500"
     | none => False) := by
  refine ⟨default_providers_http.2.1 env500, ?_⟩
  have h := (default_providers_http.2.2.1 env500
    "http://example.com/a.schema.json" _ rfl).1 rfl
  exact h

end Base
